import Mathlib

/-!
Verification development for the `calc` command of `bots/echo_bot.py`.

The source implements `_handle_calc`, which trims the payload, applies a
character gate (`ALLOWED_CALC_PATTERN = [0-9+\-*/().\s]+$` with `fullmatch`),
parses the expression with Python's `ast.parse(mode="eval")`, and evaluates
the resulting tree with `_eval_node`, which only accepts `BinOp` nodes whose
operator is in `BINARY_OPERATORS` (Add, Sub, Mult, Div via `operator.truediv`),
`UnaryOp` nodes with UAdd/USub, and numeric constants; every other node raises
`ValueError`.  `ZeroDivisionError` maps to a division-by-zero message and
`SyntaxError`/`ValueError` map to a parse-error message.

The embedding below models this pipeline over exact fractions (a pair of an
integer numerator and a natural denominator, with no normalisation, so that
every operation is kernel-computable).  This idealises CPython's IEEE-754
floats by exact rational arithmetic; all claims under consideration concern
exact values.  Python's expression parser, restricted to the characters the
gate admits (digits, `+ - * /`, parentheses, `.`, whitespace), is modelled
faithfully: its grammar on this alphabet collapses to
sum / term / factor / power / primary-with-call-trailers / atom, where atoms
are numeric literals (including forms like `.5` and `5.`), `...`, `()` and
parenthesised expressions, and the extra operators `**` and `//` tokenize by
maximal munch.  Lexical restrictions of CPython are modelled as well: decimal
integer literals must not have leading zeros, a newline outside parentheses
ends the expression, and whitespace characters other than space, tab and
form feed (and newlines inside parentheses) are invalid in source.

A second, clearly separated model (`Spec` namespace) follows the words of the
specification: the documented grammar expr/term/factor/primary, all regex
whitespace insignificant between tokens, numbers as one-or-more digits with at
most one decimal point, and the documented error taxonomy.  Refinement
theorems compare the two models.
-/

deriving instance DecidableEq for Except

/-- The set of characters matched by Python's `re` class `\s` (and stripped by
`str.strip()`): ASCII whitespace, the C1 separators, and Unicode spaces. -/
def pyIsSpace (c : Char) : Bool :=
  c = ' ' || c = '\t' || c = '\n' || c = '\r' || c = '\x0b' || c = '\x0c' ||
  c = '\x1c' || c = '\x1d' || c = '\x1e' || c = '\x1f' ||
  c = '\u0085' || c = '\u00a0' || c = '\u1680' ||
  (0x2000 ≤ c.toNat && c.toNat ≤ 0x200a) ||
  c = '\u2028' || c = '\u2029' || c = '\u202f' || c = '\u205f' || c = '\u3000'

/-- One character of the allow-list `[0-9+\-*/().\s]` used by
`ALLOWED_CALC_PATTERN`. -/
def allowedChar (c : Char) : Bool :=
  c.isDigit || c = '+' || c = '-' || c = '*' || c = '/' ||
  c = '(' || c = ')' || c = '.' || pyIsSpace c

/-- Python's `str.strip()`: remove leading and trailing whitespace. -/
def pyStrip (s : String) : String :=
  ⟨((s.data.dropWhile pyIsSpace).reverse.dropWhile pyIsSpace).reverse⟩

/-- Exact fraction values: an unnormalised integer-over-natural pair.  This
models Python's numeric values (int/float) by exact rational arithmetic; all
operations below are the textbook fraction operations and keep the
denominator positive, and none performs gcd normalisation, so that the kernel
can evaluate them. -/
structure Frac where
  num : Int
  den : Nat
deriving DecidableEq

/-- The integer `n` as a fraction. -/
def Frac.ofInt (n : Int) : Frac := ⟨n, 1⟩

/-- The natural number `n` as a fraction. -/
def Frac.ofNat (n : Nat) : Frac := ⟨Int.ofNat n, 1⟩

def Frac.add (a b : Frac) : Frac := ⟨a.num * b.den + b.num * a.den, a.den * b.den⟩

def Frac.sub (a b : Frac) : Frac := ⟨a.num * b.den - b.num * a.den, a.den * b.den⟩

def Frac.mul (a b : Frac) : Frac := ⟨a.num * b.num, a.den * b.den⟩

/-- Fraction division; the caller guards against a zero divisor, and the sign
of the divisor's numerator is folded into the result's numerator so the
denominator stays a natural number. -/
def Frac.div (a b : Frac) : Frac :=
  if 0 ≤ b.num then ⟨a.num * b.den, a.den * b.num.toNat⟩
  else ⟨-(a.num * b.den), a.den * (-b.num).toNat⟩

def Frac.neg (a : Frac) : Frac := ⟨-a.num, a.den⟩

/-- Value equality of fractions, by cross multiplication. -/
def Frac.eqv (a b : Frac) : Bool := a.num * b.den = b.num * a.den

/-- `a` represents the value zero (this is what Python's `right == 0`
comparison observes of the divisor). -/
def Frac.isZero (a : Frac) : Bool := a.num = 0

/-- The rational value a fraction denotes. -/
def Frac.toRat (a : Frac) : ℚ := (a.num : ℚ) / (a.den : ℚ)

/-- Tokens producible from the gate's character set.  Beyond the documented
seven token kinds, Python's tokenizer also produces `**`, `//`, `...` and `.`
from these characters; they are included so that the implementation model is
faithful, and the spec-side grammar simply never accepts them. -/
inductive Tok where
  | num (v : Frac)
  | plus
  | minus
  | star
  | slash
  | dstar
  | dslash
  | lparen
  | rparen
  | dot
  | ellipsisT
deriving DecidableEq

/-- Numeric value of a list of decimal digit characters. -/
def digitsVal (l : List Char) : Nat :=
  l.foldl (fun a c => 10 * a + (c.toNat - 48)) 0

/-- The fraction denoted by an integer digit part and a fractional digit part
(the value of the literal `ip.fp`). -/
def mkNumber (ip fp : List Char) : Frac :=
  ⟨Int.ofNat (digitsVal ip) * Int.ofNat (10 ^ fp.length) + Int.ofNat (digitsVal fp),
   10 ^ fp.length⟩

/-- Whitespace characters that CPython's tokenizer skips inside a logical
line: space, tab and form feed. -/
def simpleWs (c : Char) : Bool := c = ' ' || c = '\t' || c = '\x0c'

/-- Characters allowed to follow a newline that ends the expression at paren
depth zero (only trailing whitespace may follow; the handler strips its
input, so this situation does not arise there). -/
def trailWs (c : Char) : Bool := simpleWs c || c = '\n' || c = '\r'

/-- Lex one number token starting at the digit `c`: the maximal digit run,
optionally followed by `.` and a further digit run.  In strict (CPython)
mode, a plain integer literal whose digits start with `0` but are not all
zero is the `SyntaxError` "leading zeros in decimal integer literals are not
permitted". -/
def lexNumber (strict : Bool) (c : Char) (cs : List Char) :
    Except Unit (Frac × List Char) :=
  if ((c :: cs).dropWhile Char.isDigit).head? = some '.' then
    .ok (mkNumber ((c :: cs).takeWhile Char.isDigit)
           ((((c :: cs).dropWhile Char.isDigit).tail).takeWhile Char.isDigit),
         (((c :: cs).dropWhile Char.isDigit).tail).dropWhile Char.isDigit)
  else if strict ∧ c = '0' ∧ ¬((c :: cs).takeWhile Char.isDigit).all (fun d => d = '0')
  then .error ()
  else .ok (mkNumber ((c :: cs).takeWhile Char.isDigit) [], (c :: cs).dropWhile Char.isDigit)

/-- Tokenizer for both models, `strict = true` being CPython's lexer on the
gate's alphabet and `strict = false` the specification's lexer ("whitespace
is skipped and never tokenized", "one or more digits, optionally with a
single decimal point").  The two differ exactly in the lexical restrictions
CPython imposes and the specification does not: in strict mode a decimal
integer literal with a leading zero is an error (`01` is a `SyntaxError` in
Python, while `00` is the literal zero and float literals are unrestricted),
a newline or carriage return at paren depth zero ends the logical line (an
error unless only whitespace follows), and whitespace characters other than
space/tab/form feed/newline are invalid in source.  `depth` tracks the
parenthesis nesting for the newline rule. -/
def tokenize (strict : Bool) : Nat → Nat → List Char → Except Unit (List Tok)
  | 0, _, _ => .error ()
  | _ + 1, _, [] => .ok []
  | fuel + 1, depth, c :: cs =>
    if simpleWs c then tokenize strict fuel depth cs
    else if c = '\n' ∨ c = '\r' then
      if strict = false ∨ depth > 0 then tokenize strict fuel depth cs
      else if cs.all trailWs then .ok [] else .error ()
    else if pyIsSpace c then
      if strict then .error () else tokenize strict fuel depth cs
    else if c.isDigit then
      match lexNumber strict c cs with
      | .ok (v, rest) =>
        (tokenize strict fuel depth rest).map (fun ts => .num v :: ts)
      | .error _ => .error ()
    else if c = '.' then
      if (cs.head?.map Char.isDigit).getD false then
        (tokenize strict fuel depth (cs.dropWhile Char.isDigit)).map
          (fun ts => .num (mkNumber [] (cs.takeWhile Char.isDigit)) :: ts)
      else if cs.head? = some '.' ∧ cs.tail.head? = some '.' then
        (tokenize strict fuel depth cs.tail.tail).map (fun ts => .ellipsisT :: ts)
      else (tokenize strict fuel depth cs).map (fun ts => .dot :: ts)
    else if c = '+' then (tokenize strict fuel depth cs).map (fun ts => .plus :: ts)
    else if c = '-' then (tokenize strict fuel depth cs).map (fun ts => .minus :: ts)
    else if c = '*' then
      if cs.head? = some '*' then
        (tokenize strict fuel depth cs.tail).map (fun ts => .dstar :: ts)
      else (tokenize strict fuel depth cs).map (fun ts => .star :: ts)
    else if c = '/' then
      if cs.head? = some '/' then
        (tokenize strict fuel depth cs.tail).map (fun ts => .dslash :: ts)
      else (tokenize strict fuel depth cs).map (fun ts => .slash :: ts)
    else if c = '(' then
      (tokenize strict fuel (depth + 1) cs).map (fun ts => .lparen :: ts)
    else if c = ')' then
      (tokenize strict fuel (depth - 1) cs).map (fun ts => .rparen :: ts)
    else .error ()

/-- Tokenize a whole string (fuel `length + 1` suffices: every step either
finishes or consumes at least one character). -/
def tokenizeString (strict : Bool) (s : String) : Except Unit (List Tok) :=
  tokenize strict (s.data.length + 1) 0 s.data

/-- Binary AST operator kinds reachable by Python's parser from the gate's
character set: the four in `BINARY_OPERATORS` plus `ast.Pow` (from `**`) and
`ast.FloorDiv` (from `//`), which are not in the table. -/
inductive BOp where
  | add
  | sub
  | mul
  | div
  | pow
  | floordiv
deriving DecidableEq

/-- `type(node.op) in BINARY_OPERATORS` for a binary operator kind. -/
def BOp.inDict : BOp → Bool
  | .add => true
  | .sub => true
  | .mul => true
  | .div => true
  | .pow => false
  | .floordiv => false

/-- Unary AST operator kinds reachable from the character set (both are in
`UNARY_OPERATORS`). -/
inductive UOp where
  | uadd
  | usub
deriving DecidableEq

/-- The AST nodes `ast.parse(mode="eval")` can produce from a string over the
gate's character set: numeric constants, binary and unary operations, calls
(implicit application like `2(3)`; the argument list is kept, the starred or
double-starred marker of an argument is dropped since `_eval_node` never
inspects a `Call` node's children), the empty tuple `()`, and the `...`
constant. -/
inductive PyAst where
  | num (v : Frac)
  | binOp (op : BOp) (l r : PyAst)
  | unaryOp (op : UOp) (x : PyAst)
  | call (f : PyAst) (args : List PyAst)
  | tuple0
  | ellipsisNode

mutual

/-- Python's `sum` rule on the restricted token alphabet:
`sum ((PLUS | MINUS) term)*`, left-associated. -/
def pySum : Nat → List Tok → Option (PyAst × List Tok)
  | 0, _ => none
  | f + 1, ts =>
    match pyTerm f ts with
    | some (t, r) => pySumLoop f t r
    | none => none

/-- Left fold of `sum`: consume `+ term` / `- term` while present; a missing
operand after an operator fails the whole parse. -/
def pySumLoop : Nat → PyAst → List Tok → Option (PyAst × List Tok)
  | 0, _, _ => none
  | f + 1, acc, .plus :: ts =>
    match pyTerm f ts with
    | some (t, r) => pySumLoop f (.binOp .add acc t) r
    | none => none
  | f + 1, acc, .minus :: ts =>
    match pyTerm f ts with
    | some (t, r) => pySumLoop f (.binOp .sub acc t) r
    | none => none
  | _ + 1, acc, ts => some (acc, ts)

/-- Python's `term` rule: `factor ((STAR | SLASH | DSLASH) factor)*`. -/
def pyTerm : Nat → List Tok → Option (PyAst × List Tok)
  | 0, _ => none
  | f + 1, ts =>
    match pyFactor f ts with
    | some (t, r) => pyTermLoop f t r
    | none => none

def pyTermLoop : Nat → PyAst → List Tok → Option (PyAst × List Tok)
  | 0, _, _ => none
  | f + 1, acc, .star :: ts =>
    match pyFactor f ts with
    | some (t, r) => pyTermLoop f (.binOp .mul acc t) r
    | none => none
  | f + 1, acc, .slash :: ts =>
    match pyFactor f ts with
    | some (t, r) => pyTermLoop f (.binOp .div acc t) r
    | none => none
  | f + 1, acc, .dslash :: ts =>
    match pyFactor f ts with
    | some (t, r) => pyTermLoop f (.binOp .floordiv acc t) r
    | none => none
  | _ + 1, acc, ts => some (acc, ts)

/-- Python's `factor`/`power` rules flattened:
`factor := (PLUS | MINUS) factor | primary [DSTAR factor]`, where the primary
is an atom followed by call trailers.  Unary signs bind looser than `**` on
the left (`-2**2` is `-(2**2)`) and the right operand of `**` is again a
factor (`2**-3` is allowed), as in Python's grammar. -/
def pyFactor : Nat → List Tok → Option (PyAst × List Tok)
  | 0, _ => none
  | f + 1, .plus :: ts =>
    match pyFactor f ts with
    | some (x, r) => some (.unaryOp .uadd x, r)
    | none => none
  | f + 1, .minus :: ts =>
    match pyFactor f ts with
    | some (x, r) => some (.unaryOp .usub x, r)
    | none => none
  | f + 1, ts =>
    match pyAtom f ts with
    | some (a, r0) =>
      match pyTrailers f a r0 with
      | some (t, r1) =>
        match r1 with
        | .dstar :: ts2 =>
          match pyFactor f ts2 with
          | some (rhs, r2) => some (.binOp .pow t rhs, r2)
          | none => none
        | _ => some (t, r1)
      | none => none
    | none => none

/-- Call trailers after a primary: `(args)` builds a `Call` node (e.g.
`2(3)`), and a `.` trailer would need a NAME token, which the character set
cannot produce, so it fails. -/
def pyTrailers : Nat → PyAst → List Tok → Option (PyAst × List Tok)
  | 0, _, _ => none
  | f + 1, acc, .lparen :: ts =>
    match pyCallArgs f ts with
    | some (args, r) => pyTrailers f (.call acc args) r
    | none => none
  | _ + 1, _, .dot :: _ => none
  | _ + 1, acc, ts => some (acc, ts)

/-- Argument list of a call on this alphabet: empty, or a single expression,
optionally starred (`f(*x)`) or double-starred (`f(**x)`) — commas are not in
the character set. -/
def pyCallArgs : Nat → List Tok → Option (List PyAst × List Tok)
  | 0, _ => none
  | _ + 1, .rparen :: ts => some ([], ts)
  | f + 1, .star :: ts =>
    match pySum f ts with
    | some (a, .rparen :: r) => some ([a], r)
    | _ => none
  | f + 1, .dstar :: ts =>
    match pySum f ts with
    | some (a, .rparen :: r) => some ([a], r)
    | _ => none
  | f + 1, ts =>
    match pySum f ts with
    | some (a, .rparen :: r) => some ([a], r)
    | _ => none

/-- Atoms: a number, `...`, the empty tuple `()`, or a parenthesised
expression. -/
def pyAtom : Nat → List Tok → Option (PyAst × List Tok)
  | 0, _ => none
  | _ + 1, .num v :: ts => some (.num v, ts)
  | _ + 1, .ellipsisT :: ts => some (.ellipsisNode, ts)
  | f + 1, .lparen :: ts =>
    match ts with
    | .rparen :: ts2 => some (.tuple0, ts2)
    | _ =>
      match pySum f ts with
      | some (t, .rparen :: r) => some (t, r)
      | _ => none
  | _ + 1, _ => none

end

/-- Fuel that is plainly sufficient for the recursive-descent parsers: each
nested call either consumes a token first or moves down the (bounded) chain
of grammar levels. -/
def parserFuel (ts : List Tok) : Nat := 8 * ts.length + 8

/-- `ast.parse(mode="eval")` on a token list: a single expression consuming
every token. -/
def pyParseTokens (ts : List Tok) : Option PyAst :=
  match pySum (parserFuel ts) ts with
  | some (t, []) => some t
  | _ => none

/-- Failure outcomes of `_evaluate_expression`: `SyntaxError` from
`ast.parse`, `ValueError` from `_eval_node`, `ZeroDivisionError` from
`operator.truediv`. -/
inductive EErr where
  | syntaxErr
  | valueErr
  | zeroDiv
deriving DecidableEq

/-- `_eval_node`: binary operations whose operator is in `BINARY_OPERATORS`
evaluate left operand first, then right, then apply the operator
(`operator.truediv` raises `ZeroDivisionError` when the right operand equals
zero); unary operations in `UNARY_OPERATORS` evaluate their operand
(`operator.pos` is the identity); numeric constants return their value; any
other node — including `BinOp` whose operator is not in the table, whose
operands are therefore never evaluated — raises `ValueError`. -/
def evalNode : PyAst → Except EErr Frac
  | .num v => .ok v
  | .binOp .add l r =>
    (evalNode l).bind fun lv => (evalNode r).map fun rv => lv.add rv
  | .binOp .sub l r =>
    (evalNode l).bind fun lv => (evalNode r).map fun rv => lv.sub rv
  | .binOp .mul l r =>
    (evalNode l).bind fun lv => (evalNode r).map fun rv => lv.mul rv
  | .binOp .div l r =>
    (evalNode l).bind fun lv => (evalNode r).bind fun rv =>
      if rv.isZero then .error .zeroDiv else .ok (lv.div rv)
  | .binOp .pow _ _ => .error .valueErr
  | .binOp .floordiv _ _ => .error .valueErr
  | .unaryOp .uadd x => evalNode x
  | .unaryOp .usub x => (evalNode x).map Frac.neg
  | .call _ _ => .error .valueErr
  | .tuple0 => .error .valueErr
  | .ellipsisNode => .error .valueErr

/-- `_evaluate_expression`: parse then walk. -/
def evaluateExpression (s : String) : Except EErr Frac :=
  match tokenizeString true s with
  | .error _ => .error .syntaxErr
  | .ok ts =>
    match pyParseTokens ts with
    | none => .error .syntaxErr
    | some t => evalNode t

/-- The five reply shapes `_handle_calc` can produce, abstracting the exact
message strings: the usage prompt, the allowed-character-set message, the
division-by-zero message, the parse-error message, and the
`"<expression> = <result>"` success reply. -/
inductive CalcReply where
  | usage
  | disallowed
  | divzero
  | parseError
  | success (expr : String) (v : Frac)
deriving DecidableEq

/-- `_handle_calc`: strip the payload; empty → usage prompt; a character
outside the allow-list → character-set message; then evaluate, mapping
`ZeroDivisionError` to the division-by-zero message and `SyntaxError` or
`ValueError` to the parse-error message. -/
def handleCalc (payload : String) : CalcReply :=
  let expression := pyStrip payload
  if expression.data.isEmpty then .usage
  else if expression.data.all allowedChar then
    match evaluateExpression expression with
    | .ok v => .success expression v
    | .error .zeroDiv => .divzero
    | .error .syntaxErr => .parseError
    | .error .valueErr => .parseError
  else .disallowed

/-- The bot state visible to `_handle_calc`: the optional language client and
the capabilities list set in `__init__`.  `_handle_calc` reads no mutable
attribute and writes none (the operator tables and the regex are class-level
constants), so the handler is modelled as returning the state unchanged. -/
structure EchoBot where
  languageClient : Option Unit
  capabilities : List String
deriving DecidableEq

/-- `_handle_calc` as a state-passing function on the bot object. -/
def handleCalcM (bot : EchoBot) (payload : String) : CalcReply × EchoBot :=
  (handleCalc payload, bot)

namespace Spec

/-- Modelled from the spec: binary operator kinds `{Add, Sub, Mul, Div}` of
the specification's data model. -/
inductive BinOpKind where
  | add
  | sub
  | mul
  | div
deriving DecidableEq

/-- Modelled from the spec: unary operator kinds `{Plus, Neg}`. -/
inductive UnaryOpKind where
  | plus
  | neg
deriving DecidableEq

/-- Modelled from the spec: the `Expression` tagged variant
`Number | BinaryOp | UnaryOp`. -/
inductive Expression where
  | number (v : Frac)
  | binaryOp (op : BinOpKind) (l r : Expression)
  | unaryOp (op : UnaryOpKind) (x : Expression)

mutual

/-- Modelled from the spec: `expr := term (('+' | '-') term)*`, parsed by an
iterative left fold. -/
def expr : Nat → List Tok → Option (Expression × List Tok)
  | 0, _ => none
  | f + 1, ts =>
    match term f ts with
    | some (t, r) => exprLoop f t r
    | none => none

def exprLoop : Nat → Expression → List Tok → Option (Expression × List Tok)
  | 0, _, _ => none
  | f + 1, acc, .plus :: ts =>
    match term f ts with
    | some (t, r) => exprLoop f (.binaryOp .add acc t) r
    | none => none
  | f + 1, acc, .minus :: ts =>
    match term f ts with
    | some (t, r) => exprLoop f (.binaryOp .sub acc t) r
    | none => none
  | _ + 1, acc, ts => some (acc, ts)

/-- Modelled from the spec: `term := factor (('*' | '/') factor)*`. -/
def term : Nat → List Tok → Option (Expression × List Tok)
  | 0, _ => none
  | f + 1, ts =>
    match factor f ts with
    | some (t, r) => termLoop f t r
    | none => none

def termLoop : Nat → Expression → List Tok → Option (Expression × List Tok)
  | 0, _, _ => none
  | f + 1, acc, .star :: ts =>
    match factor f ts with
    | some (t, r) => termLoop f (.binaryOp .mul acc t) r
    | none => none
  | f + 1, acc, .slash :: ts =>
    match factor f ts with
    | some (t, r) => termLoop f (.binaryOp .div acc t) r
    | none => none
  | _ + 1, acc, ts => some (acc, ts)

/-- Modelled from the spec: `factor := ('+' | '-') factor | primary`. -/
def factor : Nat → List Tok → Option (Expression × List Tok)
  | 0, _ => none
  | f + 1, .plus :: ts =>
    match factor f ts with
    | some (x, r) => some (.unaryOp .plus x, r)
    | none => none
  | f + 1, .minus :: ts =>
    match factor f ts with
    | some (x, r) => some (.unaryOp .neg x, r)
    | none => none
  | f + 1, ts => primary f ts

/-- Modelled from the spec: `primary := NUMBER | '(' expr ')'`.  Tokens other
than the documented seven (such as `**` or `...`, produced by the shared
lexer) match no rule and fail the parse. -/
def primary : Nat → List Tok → Option (Expression × List Tok)
  | 0, _ => none
  | _ + 1, .num v :: ts => some (.number v, ts)
  | f + 1, .lparen :: ts =>
    match expr f ts with
    | some (e, .rparen :: r) => some (e, r)
    | _ => none
  | _ + 1, _ => none

end

/-- Modelled from the spec: a complete parse consumes every token (anything
left over is the `TrailingInput` parse failure). -/
def parseTokens (ts : List Tok) : Option Expression :=
  match expr (parserFuel ts) ts with
  | some (e, []) => some e
  | _ => none

/-- Modelled from the spec (§4.3): recursively reduce the tree; `Div` fails
when the evaluated right operand is exactly zero, `Plus` is the identity,
`Neg` negates; operands evaluate left first. -/
def evalExpression : Expression → Except Unit Frac
  | .number v => .ok v
  | .binaryOp .add l r =>
    (evalExpression l).bind fun lv => (evalExpression r).map fun rv => lv.add rv
  | .binaryOp .sub l r =>
    (evalExpression l).bind fun lv => (evalExpression r).map fun rv => lv.sub rv
  | .binaryOp .mul l r =>
    (evalExpression l).bind fun lv => (evalExpression r).map fun rv => lv.mul rv
  | .binaryOp .div l r =>
    (evalExpression l).bind fun lv => (evalExpression r).bind fun rv =>
      if rv.isZero then .error () else .ok (lv.div rv)
  | .unaryOp .plus x => evalExpression x
  | .unaryOp .neg x => (evalExpression x).map Frac.neg

/-- Modelled from the spec (§4.4): the `EvalError` taxonomy. -/
inductive EvalError where
  | emptyInput
  | disallowedCharacter
  | parseError
  | divisionByZero
deriving DecidableEq

/-- Modelled from the spec (§4.4): `evaluate_expression`, composed as
trim → empty check → character gate → parse → evaluate, short-circuiting at
the first failure. -/
def evaluate (raw : String) : Except EvalError Frac :=
  let s := pyStrip raw
  if s.data.isEmpty then .error .emptyInput
  else if s.data.all allowedChar then
    match tokenizeString false s with
    | .error _ => .error .parseError
    | .ok ts =>
      match parseTokens ts with
      | none => .error .parseError
      | some e =>
        match evalExpression e with
        | .ok v => .ok v
        | .error _ => .error .divisionByZero
  else .error .disallowedCharacter

/-- The trimmed string is generated by the documented grammar (lexes under
the spec's whitespace-insignificant lexer and parses completely). -/
def wellFormed (raw : String) : Bool :=
  match tokenizeString false (pyStrip raw) with
  | .ok ts => (parseTokens ts).isSome
  | .error _ => false

end Spec

/-- Embedding of spec binary operators into AST operators. -/
def toPyB : Spec.BinOpKind → BOp
  | .add => .add
  | .sub => .sub
  | .mul => .mul
  | .div => .div

/-- Embedding of spec unary operators into AST operators. -/
def toPyU : Spec.UnaryOpKind → UOp
  | .plus => .uadd
  | .neg => .usub

/-- Embedding of spec expression trees into the AST node type. -/
def toPy : Spec.Expression → PyAst
  | .number v => .num v
  | .binaryOp op l r => .binOp (toPyB op) (toPy l) (toPy r)
  | .unaryOp op x => .unaryOp (toPyU op) (toPy x)

/-- An AST node tree built only from constructs `_eval_node` supports:
numbers, the four table binary operators and unary signs. -/
def supported : PyAst → Bool
  | .num _ => true
  | .binOp op l r => op.inDict && supported l && supported r
  | .unaryOp _ x => supported x
  | .call _ _ => false
  | .tuple0 => false
  | .ellipsisNode => false

/-- Token heads on which the spec grammar and Python's grammar stop a parse
in the same way; `**`, `//`, `(` (as a call trailer) and `.` are the heads
where Python's grammar would consume further input. -/
def stopTok : Tok → Bool
  | .dstar => false
  | .dslash => false
  | .lparen => false
  | .dot => false
  | _ => true

def safeRest : List Tok → Bool
  | [] => true
  | t :: _ => stopTok t

/-- The trimmed string lexes under CPython's lexer (no leading-zero integer
literal, no newline outside parentheses, no exotic whitespace). -/
def lexesStrict (s : String) : Bool :=
  match tokenizeString true s with
  | .ok _ => true
  | .error _ => false

/-- Monadic glue for the fuelled evaluator: propagate exhaustion (`none`) and
raised exceptions. -/
def liftB (x : Option (Except EErr Frac))
    (k : Frac → Option (Except EErr Frac)) : Option (Except EErr Frac) :=
  match x with
  | none => none
  | some (.error e) => some (.error e)
  | some (.ok v) => k v

/-- `_eval_node` instrumented with explicit fuel: each recursive call of the
source consumes one unit.  `none` means the fuel ran out. -/
def evalNodeF : Nat → PyAst → Option (Except EErr Frac)
  | 0, _ => none
  | f + 1, t =>
    match t with
    | .num v => some (.ok v)
    | .binOp .add l r =>
      liftB (evalNodeF f l) fun lv => liftB (evalNodeF f r) fun rv =>
        some (.ok (lv.add rv))
    | .binOp .sub l r =>
      liftB (evalNodeF f l) fun lv => liftB (evalNodeF f r) fun rv =>
        some (.ok (lv.sub rv))
    | .binOp .mul l r =>
      liftB (evalNodeF f l) fun lv => liftB (evalNodeF f r) fun rv =>
        some (.ok (lv.mul rv))
    | .binOp .div l r =>
      liftB (evalNodeF f l) fun lv => liftB (evalNodeF f r) fun rv =>
        if rv.isZero then some (.error .zeroDiv) else some (.ok (lv.div rv))
    | .binOp .pow _ _ => some (.error .valueErr)
    | .binOp .floordiv _ _ => some (.error .valueErr)
    | .unaryOp .uadd x => evalNodeF f x
    | .unaryOp .usub x => liftB (evalNodeF f x) fun v => some (.ok v.neg)
    | .call _ _ => some (.error .valueErr)
    | .tuple0 => some (.error .valueErr)
    | .ellipsisNode => some (.error .valueErr)

/-- Number of nodes `_eval_node` can visit below a node (the children of an
unsupported `Call` node are never visited, so they do not count). -/
def sizePy : PyAst → Nat
  | .num _ => 1
  | .binOp _ l r => sizePy l + sizePy r + 1
  | .unaryOp _ x => sizePy x + 1
  | .call g _ => sizePy g + 1
  | .tuple0 => 1
  | .ellipsisNode => 1

/-- The node's own shape is one `_eval_node` handles: a numeric constant, a
binary operation whose operator is in `BINARY_OPERATORS`, or a unary
operation. -/
def supportedHead : PyAst → Bool
  | .num _ => true
  | .binOp op _ _ => op.inDict
  | .unaryOp _ _ => true
  | .call _ _ => false
  | .tuple0 => false
  | .ellipsisNode => false

theorem length_dropWhile_le (p : Char → Bool) (l : List Char) :
    (l.dropWhile p).length ≤ l.length :=
  (List.dropWhile_suffix p).sublist.length_le

theorem tokenize_lenient_allWs :
    ∀ (fuel depth : Nat) (cs : List Char), cs.all trailWs = true →
      cs.length < fuel → tokenize false fuel depth cs = .ok [] := by
  intro fuel
  induction fuel with
  | zero => intro depth cs _ h; omega
  | succ f ih =>
    intro depth cs hall hlen
    cases cs with
    | nil => rfl
    | cons c cs2 =>
      simp only [List.all_cons, Bool.and_eq_true] at hall
      have hrec : tokenize false f depth cs2 = .ok [] :=
        ih depth cs2 hall.2 (by simp only [List.length_cons] at hlen; omega)
      have hc := hall.1
      simp only [tokenize]
      by_cases h1 : simpleWs c = true
      · rw [if_pos h1]
        exact hrec
      · rw [if_neg h1]
        have h2 : c = '\n' ∨ c = '\r' := by
          unfold trailWs at hc
          simp only [Bool.or_eq_true, decide_eq_true_eq] at hc
          rcases hc with (h | h) | h
          · exact absurd h h1
          · exact Or.inl h
          · exact Or.inr h
        rw [if_pos h2, if_pos (show True ∨ depth > 0 from Or.inl trivial)]
        exact hrec

theorem lexNumber_strict_to_lenient (c : Char) (cs : List Char) (v : Frac)
    (rest : List Char) (h : lexNumber true c cs = .ok (v, rest)) :
    lexNumber false c cs = .ok (v, rest) := by
  unfold lexNumber at h ⊢
  split at h
  · rw [if_pos (by assumption)]
    exact h
  · split at h
    · exact absurd h (by simp)
    · rw [if_neg (by assumption), if_neg (by simp)]
      exact h

theorem lexNumber_length (strict : Bool) (c : Char) (cs : List Char) (v : Frac)
    (rest : List Char) (hc : c.isDigit = true)
    (h : lexNumber strict c cs = .ok (v, rest)) : rest.length ≤ cs.length := by
  have hdw : (c :: cs).dropWhile Char.isDigit = cs.dropWhile Char.isDigit := by
    simp [List.dropWhile_cons, hc]
  have hlen1 : (cs.dropWhile Char.isDigit).length ≤ cs.length :=
    length_dropWhile_le Char.isDigit cs
  unfold lexNumber at h
  split at h
  · rename_i hdot
    injection h with h
    injection h with h1 h2
    subst h2
    rw [hdw] at hdot
    cases hd : cs.dropWhile Char.isDigit with
    | nil => rw [hd] at hdot; simp at hdot
    | cons d rest2 =>
      rw [hd] at hdot
      rw [hdw, hd]
      have hr2 : rest2.length + 1 ≤ cs.length := by
        have h3 := hlen1
        rw [hd] at h3
        simpa using h3
      calc ((d :: rest2 : List Char).tail.dropWhile Char.isDigit).length
            ≤ rest2.length := by
              simpa using length_dropWhile_le Char.isDigit rest2
        _ ≤ cs.length := by omega
  · split at h
    · exact absurd h (by simp)
    · injection h with h
      injection h with h1 h2
      subst h2
      rw [hdw]
      exact hlen1

theorem tokenize_strict_to_lenient :
    ∀ (fuel depth : Nat) (cs : List Char) (ts : List Tok),
      cs.length < fuel → tokenize true fuel depth cs = .ok ts →
      tokenize false fuel depth cs = .ok ts := by
  intro fuel
  induction fuel with
  | zero => intro _ cs _ h _; omega
  | succ f ih =>
    intro depth cs ts hlen h
    cases cs with
    | nil => exact h
    | cons c cs2 =>
      have hlen2 : cs2.length < f := by
        simp only [List.length_cons] at hlen; omega
      have htail : cs2.tail.length < f := by
        have := cs2.length_tail
        omega
      simp only [tokenize] at h ⊢
      by_cases h1 : simpleWs c = true
      · rw [if_pos h1] at h ⊢
        exact ih depth cs2 ts hlen2 h
      · rw [if_neg h1] at h ⊢
        by_cases h2 : c = '\n' ∨ c = '\r'
        · rw [if_pos h2] at h ⊢
          rw [if_pos (show True ∨ depth > 0 from Or.inl trivial)]
          by_cases hd : depth > 0
          · rw [if_pos (by exact Or.inr hd)] at h
            exact ih depth cs2 ts hlen2 h
          · rw [if_neg (by rintro (hh | hh) <;> simp_all)] at h
            by_cases hall : cs2.all trailWs = true
            · rw [if_pos hall] at h
              injection h with h
              subst h
              exact tokenize_lenient_allWs f depth cs2 hall hlen2
            · rw [if_neg hall] at h
              exact absurd h (by simp)
        · rw [if_neg h2] at h ⊢
          by_cases h3 : pyIsSpace c = true
          · rw [if_pos h3] at h
            exact absurd h (by simp)
          · rw [if_neg h3] at h ⊢
            by_cases h4 : c.isDigit = true
            · rw [if_pos h4] at h ⊢
              cases hlex : lexNumber true c cs2 with
              | error e =>
                simp only [hlex] at h
                exact absurd h (by simp)
              | ok vr =>
                obtain ⟨v, rest⟩ := vr
                simp only [hlex] at h
                simp only [lexNumber_strict_to_lenient c cs2 v rest hlex]
                have hrl : rest.length < f := by
                  have := lexNumber_length true c cs2 v rest h4 hlex
                  omega
                cases htok : tokenize true f depth rest with
                | error e =>
                  rw [htok] at h
                  exact absurd h (by simp [Except.map])
                | ok ts2 =>
                  rw [htok] at h
                  rw [ih depth rest ts2 hrl htok]
                  exact h
            · rw [if_neg h4] at h ⊢
              by_cases h5 : c = '.'
              · rw [if_pos h5] at h ⊢
                by_cases h6 : (cs2.head?.map Char.isDigit).getD false = true
                · rw [if_pos h6] at h ⊢
                  have hdl : (cs2.dropWhile Char.isDigit).length < f := by
                    have := length_dropWhile_le Char.isDigit cs2
                    omega
                  cases htok : tokenize true f depth (cs2.dropWhile Char.isDigit) with
                  | error e =>
                    rw [htok] at h
                    exact absurd h (by simp [Except.map])
                  | ok ts2 =>
                    rw [htok] at h
                    rw [ih depth _ ts2 hdl htok]
                    exact h
                · rw [if_neg h6] at h ⊢
                  by_cases h7 : cs2.head? = some '.' ∧ cs2.tail.head? = some '.'
                  · rw [if_pos h7] at h ⊢
                    have httl : cs2.tail.tail.length < f := by
                      have := cs2.tail.length_tail
                      omega
                    cases htok : tokenize true f depth cs2.tail.tail with
                    | error e =>
                      rw [htok] at h
                      exact absurd h (by simp [Except.map])
                    | ok ts2 =>
                      rw [htok] at h
                      rw [ih depth _ ts2 httl htok]
                      exact h
                  · rw [if_neg h7] at h ⊢
                    cases htok : tokenize true f depth cs2 with
                    | error e =>
                      rw [htok] at h
                      exact absurd h (by simp [Except.map])
                    | ok ts2 =>
                      rw [htok] at h
                      rw [ih depth _ ts2 hlen2 htok]
                      exact h
              · rw [if_neg h5] at h ⊢
                by_cases h8 : c = '+'
                · rw [if_pos h8] at h ⊢
                  cases htok : tokenize true f depth cs2 with
                  | error e =>
                    rw [htok] at h
                    exact absurd h (by simp [Except.map])
                  | ok ts2 =>
                    rw [htok] at h
                    rw [ih depth _ ts2 hlen2 htok]
                    exact h
                · rw [if_neg h8] at h ⊢
                  by_cases h9 : c = '-'
                  · rw [if_pos h9] at h ⊢
                    cases htok : tokenize true f depth cs2 with
                    | error e =>
                      rw [htok] at h
                      exact absurd h (by simp [Except.map])
                    | ok ts2 =>
                      rw [htok] at h
                      rw [ih depth _ ts2 hlen2 htok]
                      exact h
                  · rw [if_neg h9] at h ⊢
                    by_cases h10 : c = '*'
                    · rw [if_pos h10] at h ⊢
                      by_cases h11 : cs2.head? = some '*'
                      · rw [if_pos h11] at h ⊢
                        cases htok : tokenize true f depth cs2.tail with
                        | error e =>
                          rw [htok] at h
                          exact absurd h (by simp [Except.map])
                        | ok ts2 =>
                          rw [htok] at h
                          rw [ih depth _ ts2 htail htok]
                          exact h
                      · rw [if_neg h11] at h ⊢
                        cases htok : tokenize true f depth cs2 with
                        | error e =>
                          rw [htok] at h
                          exact absurd h (by simp [Except.map])
                        | ok ts2 =>
                          rw [htok] at h
                          rw [ih depth _ ts2 hlen2 htok]
                          exact h
                    · rw [if_neg h10] at h ⊢
                      by_cases h12 : c = '/'
                      · rw [if_pos h12] at h ⊢
                        by_cases h13 : cs2.head? = some '/'
                        · rw [if_pos h13] at h ⊢
                          cases htok : tokenize true f depth cs2.tail with
                          | error e =>
                            rw [htok] at h
                            exact absurd h (by simp [Except.map])
                          | ok ts2 =>
                            rw [htok] at h
                            rw [ih depth _ ts2 htail htok]
                            exact h
                        · rw [if_neg h13] at h ⊢
                          cases htok : tokenize true f depth cs2 with
                          | error e =>
                            rw [htok] at h
                            exact absurd h (by simp [Except.map])
                          | ok ts2 =>
                            rw [htok] at h
                            rw [ih depth _ ts2 hlen2 htok]
                            exact h
                      · rw [if_neg h12] at h ⊢
                        by_cases h14 : c = '('
                        · rw [if_pos h14] at h ⊢
                          cases htok : tokenize true f (depth + 1) cs2 with
                          | error e =>
                            rw [htok] at h
                            exact absurd h (by simp [Except.map])
                          | ok ts2 =>
                            rw [htok] at h
                            rw [ih (depth + 1) _ ts2 hlen2 htok]
                            exact h
                        · rw [if_neg h14] at h ⊢
                          by_cases h15 : c = ')'
                          · rw [if_pos h15] at h ⊢
                            cases htok : tokenize true f (depth - 1) cs2 with
                            | error e =>
                              rw [htok] at h
                              exact absurd h (by simp [Except.map])
                            | ok ts2 =>
                              rw [htok] at h
                              rw [ih (depth - 1) _ ts2 hlen2 htok]
                              exact h
                          · rw [if_neg h15] at h ⊢
                            exact absurd h (by simp)

theorem tokenizeString_strict_to_lenient (s : String) (ts : List Tok)
    (h : tokenizeString true s = .ok ts) : tokenizeString false s = .ok ts :=
  tokenize_strict_to_lenient (s.data.length + 1) 0 s.data ts (Nat.lt_succ_self _) h

theorem spec_primary_rparen (f : Nat) (ts : List Tok) :
    Spec.primary f (.rparen :: ts) = none := by
  cases f <;> rfl

theorem spec_factor_rparen (f : Nat) (ts : List Tok) :
    Spec.factor f (.rparen :: ts) = none := by
  cases f with
  | zero => rfl
  | succ f => simp only [Spec.factor, spec_primary_rparen]

theorem spec_term_rparen (f : Nat) (ts : List Tok) :
    Spec.term f (.rparen :: ts) = none := by
  cases f with
  | zero => rfl
  | succ f => simp only [Spec.term, spec_factor_rparen]

theorem spec_expr_rparen (f : Nat) (ts : List Tok) :
    Spec.expr f (.rparen :: ts) = none := by
  cases f with
  | zero => rfl
  | succ f => simp only [Spec.expr, spec_term_rparen]

theorem spec_exprLoop_safe (f : Nat) (e0 : Spec.Expression) (ts : List Tok)
    (e : Spec.Expression) (r : List Tok) (h : Spec.exprLoop f e0 ts = some (e, r))
    (hs : safeRest r = true) : safeRest ts = true := by
  cases f with
  | zero => simp [Spec.exprLoop] at h
  | succ f =>
    cases ts with
    | nil => rfl
    | cons t ts2 =>
      cases t with
      | plus => rfl
      | minus => rfl
      | num v =>
        simp only [Spec.exprLoop] at h
        injection h with h
        injection h with h1 h2
        subst h2
        exact hs
      | star =>
        simp only [Spec.exprLoop] at h
        injection h with h
        injection h with h1 h2
        subst h2
        exact hs
      | slash =>
        simp only [Spec.exprLoop] at h
        injection h with h
        injection h with h1 h2
        subst h2
        exact hs
      | dstar =>
        simp only [Spec.exprLoop] at h
        injection h with h
        injection h with h1 h2
        subst h2
        exact hs
      | dslash =>
        simp only [Spec.exprLoop] at h
        injection h with h
        injection h with h1 h2
        subst h2
        exact hs
      | lparen =>
        simp only [Spec.exprLoop] at h
        injection h with h
        injection h with h1 h2
        subst h2
        exact hs
      | rparen =>
        simp only [Spec.exprLoop] at h
        injection h with h
        injection h with h1 h2
        subst h2
        exact hs
      | dot =>
        simp only [Spec.exprLoop] at h
        injection h with h
        injection h with h1 h2
        subst h2
        exact hs
      | ellipsisT =>
        simp only [Spec.exprLoop] at h
        injection h with h
        injection h with h1 h2
        subst h2
        exact hs

theorem spec_termLoop_safe (f : Nat) (e0 : Spec.Expression) (ts : List Tok)
    (e : Spec.Expression) (r : List Tok) (h : Spec.termLoop f e0 ts = some (e, r))
    (hs : safeRest r = true) : safeRest ts = true := by
  cases f with
  | zero => simp [Spec.termLoop] at h
  | succ f =>
    cases ts with
    | nil => rfl
    | cons t ts2 =>
      cases t with
      | star => rfl
      | slash => rfl
      | num v =>
        simp only [Spec.termLoop] at h
        injection h with h
        injection h with h1 h2
        subst h2
        exact hs
      | plus =>
        simp only [Spec.termLoop] at h
        injection h with h
        injection h with h1 h2
        subst h2
        exact hs
      | minus =>
        simp only [Spec.termLoop] at h
        injection h with h
        injection h with h1 h2
        subst h2
        exact hs
      | dstar =>
        simp only [Spec.termLoop] at h
        injection h with h
        injection h with h1 h2
        subst h2
        exact hs
      | dslash =>
        simp only [Spec.termLoop] at h
        injection h with h
        injection h with h1 h2
        subst h2
        exact hs
      | lparen =>
        simp only [Spec.termLoop] at h
        injection h with h
        injection h with h1 h2
        subst h2
        exact hs
      | rparen =>
        simp only [Spec.termLoop] at h
        injection h with h
        injection h with h1 h2
        subst h2
        exact hs
      | dot =>
        simp only [Spec.termLoop] at h
        injection h with h
        injection h with h1 h2
        subst h2
        exact hs
      | ellipsisT =>
        simp only [Spec.termLoop] at h
        injection h with h
        injection h with h1 h2
        subst h2
        exact hs

theorem spec_primary_nil (f : Nat) : Spec.primary f [] = none := by
  cases f <;> rfl

theorem spec_factor_nil (f : Nat) : Spec.factor f [] = none := by
  cases f with
  | zero => rfl
  | succ f => simp only [Spec.factor, spec_primary_nil]

theorem spec_term_nil (f : Nat) : Spec.term f [] = none := by
  cases f with
  | zero => rfl
  | succ f => simp only [Spec.term, spec_factor_nil]

theorem spec_expr_nil (f : Nat) : Spec.expr f [] = none := by
  cases f with
  | zero => rfl
  | succ f => simp only [Spec.expr, spec_term_nil]

theorem pyTrailers_safe (g : Nat) (acc : PyAst) (r : List Tok)
    (hs : safeRest r = true) : pyTrailers (g + 1) acc r = some (acc, r) := by
  cases r with
  | nil => rfl
  | cons t0 r2 => cases t0 <;> first | rfl | simp [safeRest, stopTok] at hs

theorem forward_all : ∀ f : Nat,
    (∀ ts e r, Spec.expr f ts = some (e, r) → safeRest r = true →
      pySum f ts = some (toPy e, r)) ∧
    (∀ e0 ts e r, Spec.exprLoop f e0 ts = some (e, r) → safeRest r = true →
      pySumLoop f (toPy e0) ts = some (toPy e, r)) ∧
    (∀ ts e r, Spec.term f ts = some (e, r) → safeRest r = true →
      pyTerm f ts = some (toPy e, r)) ∧
    (∀ e0 ts e r, Spec.termLoop f e0 ts = some (e, r) → safeRest r = true →
      pyTermLoop f (toPy e0) ts = some (toPy e, r)) ∧
    (∀ ts e r, Spec.factor f ts = some (e, r) → safeRest r = true →
      pyFactor f ts = some (toPy e, r)) ∧
    (∀ ts e r, Spec.primary f ts = some (e, r) → safeRest r = true →
      pyAtom f ts = some (toPy e, r)) := by
  intro f
  induction f with
  | zero =>
    refine ⟨?_, ?_, ?_, ?_, ?_, ?_⟩
    · intro ts e r h _; simp [Spec.expr] at h
    · intro e0 ts e r h _; simp [Spec.exprLoop] at h
    · intro ts e r h _; simp [Spec.term] at h
    · intro e0 ts e r h _; simp [Spec.termLoop] at h
    · intro ts e r h _; simp [Spec.factor] at h
    · intro ts e r h _; simp [Spec.primary] at h
  | succ f ih =>
    obtain ⟨ihExpr, ihExprLoop, ihTerm, ihTermLoop, ihFactor, ihPrimary⟩ := ih
    refine ⟨?_, ?_, ?_, ?_, ?_, ?_⟩
    · -- expr level
      intro ts e r h hs
      simp only [Spec.expr] at h
      cases ht : Spec.term f ts with
      | none => simp only [ht] at h; exact Option.noConfusion h
      | some tr =>
        obtain ⟨t, r1⟩ := tr
        simp only [ht] at h
        have hs1 : safeRest r1 = true := spec_exprLoop_safe f t r1 e r h hs
        simp only [pySum, ihTerm ts t r1 ht hs1]
        exact ihExprLoop t r1 e r h hs
    · -- exprLoop level
      intro e0 ts e r h hs
      cases ts with
      | nil =>
        simp only [Spec.exprLoop] at h
        injection h with h
        injection h with h1 h2
        subst h1
        subst h2
        rfl
      | cons t ts2 =>
        cases t
        case plus =>
          simp only [Spec.exprLoop] at h
          cases ht : Spec.term f ts2 with
          | none => simp only [ht] at h; exact Option.noConfusion h
          | some tr =>
            obtain ⟨t2, r2⟩ := tr
            simp only [ht] at h
            have hs2 : safeRest r2 = true := spec_exprLoop_safe f _ r2 e r h hs
            simp only [pySumLoop, ihTerm ts2 t2 r2 ht hs2]
            exact ihExprLoop (.binaryOp .add e0 t2) r2 e r h hs
        case minus =>
          simp only [Spec.exprLoop] at h
          cases ht : Spec.term f ts2 with
          | none => simp only [ht] at h; exact Option.noConfusion h
          | some tr =>
            obtain ⟨t2, r2⟩ := tr
            simp only [ht] at h
            have hs2 : safeRest r2 = true := spec_exprLoop_safe f _ r2 e r h hs
            simp only [pySumLoop, ihTerm ts2 t2 r2 ht hs2]
            exact ihExprLoop (.binaryOp .sub e0 t2) r2 e r h hs
        all_goals
          simp only [Spec.exprLoop] at h
          injection h with h
          injection h with h1 h2
          subst h1
          subst h2
          rfl
    · -- term level
      intro ts e r h hs
      simp only [Spec.term] at h
      cases ht : Spec.factor f ts with
      | none => simp only [ht] at h; exact Option.noConfusion h
      | some tr =>
        obtain ⟨t, r1⟩ := tr
        simp only [ht] at h
        have hs1 : safeRest r1 = true := spec_termLoop_safe f t r1 e r h hs
        simp only [pyTerm, ihFactor ts t r1 ht hs1]
        exact ihTermLoop t r1 e r h hs
    · -- termLoop level
      intro e0 ts e r h hs
      cases ts with
      | nil =>
        simp only [Spec.termLoop] at h
        injection h with h
        injection h with h1 h2
        subst h1
        subst h2
        rfl
      | cons t ts2 =>
        cases t
        case star =>
          simp only [Spec.termLoop] at h
          cases ht : Spec.factor f ts2 with
          | none => simp only [ht] at h; exact Option.noConfusion h
          | some tr =>
            obtain ⟨t2, r2⟩ := tr
            simp only [ht] at h
            have hs2 : safeRest r2 = true := spec_termLoop_safe f _ r2 e r h hs
            simp only [pyTermLoop, ihFactor ts2 t2 r2 ht hs2]
            exact ihTermLoop (.binaryOp .mul e0 t2) r2 e r h hs
        case slash =>
          simp only [Spec.termLoop] at h
          cases ht : Spec.factor f ts2 with
          | none => simp only [ht] at h; exact Option.noConfusion h
          | some tr =>
            obtain ⟨t2, r2⟩ := tr
            simp only [ht] at h
            have hs2 : safeRest r2 = true := spec_termLoop_safe f _ r2 e r h hs
            simp only [pyTermLoop, ihFactor ts2 t2 r2 ht hs2]
            exact ihTermLoop (.binaryOp .div e0 t2) r2 e r h hs
        all_goals
          simp only [Spec.termLoop] at h
          injection h with h
          injection h with h1 h2
          subst h1
          subst h2
          first
          | rfl
          | simp [safeRest, stopTok] at hs
    · -- factor level
      intro ts e r h hs
      cases ts with
      | nil =>
        simp only [Spec.factor, spec_primary_nil] at h
        exact Option.noConfusion h
      | cons t ts2 =>
        cases t
        case plus =>
          simp only [Spec.factor] at h
          cases hf : Spec.factor f ts2 with
          | none => simp only [hf] at h; exact Option.noConfusion h
          | some xr =>
            obtain ⟨x, r1⟩ := xr
            simp only [hf] at h
            injection h with h
            injection h with h1 h2
            subst h1
            subst h2
            simp only [pyFactor, ihFactor ts2 x r1 hf hs]
            rfl
        case minus =>
          simp only [Spec.factor] at h
          cases hf : Spec.factor f ts2 with
          | none => simp only [hf] at h; exact Option.noConfusion h
          | some xr =>
            obtain ⟨x, r1⟩ := xr
            simp only [hf] at h
            injection h with h
            injection h with h1 h2
            subst h1
            subst h2
            simp only [pyFactor, ihFactor ts2 x r1 hf hs]
            rfl
        all_goals
          simp only [Spec.factor] at h
          cases f with
          | zero =>
            simp only [Spec.primary] at h
            exact Option.noConfusion h
          | succ g =>
            have hatom := ihPrimary _ e r h hs
            simp only [pyFactor, hatom, pyTrailers_safe g (toPy e) r hs]
            cases r with
            | nil => rfl
            | cons t0 r2 =>
              cases t0 <;> first | rfl | simp [safeRest, stopTok] at hs
    · -- primary level
      intro ts e r h hs
      cases ts with
      | nil => rw [spec_primary_nil] at h; exact Option.noConfusion h
      | cons t ts2 =>
        cases t
        case num v =>
          simp only [Spec.primary] at h
          injection h with h
          injection h with h1 h2
          subst h1
          subst h2
          rfl
        case lparen =>
          simp only [Spec.primary] at h
          cases hx : Spec.expr f ts2 with
          | none => simp only [hx] at h; exact Option.noConfusion h
          | some er =>
            obtain ⟨e1, r1⟩ := er
            simp only [hx] at h
            cases r1 with
            | nil => simp at h
            | cons t0 r2 =>
              cases t0
              case rparen =>
                simp only [] at h
                injection h with h
                injection h with h1 h2
                cases ts2 with
                | nil => rw [spec_expr_nil] at hx; exact Option.noConfusion hx
                | cons u ts3 =>
                  cases u
                  case rparen =>
                    rw [spec_expr_rparen] at hx
                    exact Option.noConfusion hx
                  all_goals
                    rw [← h1, ← h2]
                    have hpy := ihExpr _ e1 (.rparen :: r2) hx rfl
                    simp only [pyAtom, hpy]
              all_goals simp at h
        all_goals
          simp only [Spec.primary] at h
          exact Option.noConfusion h

theorem pyAtom_nil (f : Nat) : pyAtom f [] = none := by
  cases f <;> rfl

theorem pyTrailers_supported : ∀ (f : Nat) (acc : PyAst) (ts : List Tok)
    (t : PyAst) (r : List Tok), pyTrailers f acc ts = some (t, r) →
    supported t = true → t = acc ∧ r = ts := by
  intro f
  induction f with
  | zero => intro acc ts t r h _; simp [pyTrailers] at h
  | succ f ih =>
    intro acc ts t r h hsupp
    cases ts with
    | nil =>
      simp only [pyTrailers] at h
      injection h with h
      injection h with h1 h2
      exact ⟨h1.symm, h2.symm⟩
    | cons t0 ts2 =>
      cases t0
      case lparen =>
        simp only [pyTrailers] at h
        cases hargs : pyCallArgs f ts2 with
        | none => simp only [hargs] at h; exact Option.noConfusion h
        | some ar =>
          obtain ⟨args, r1⟩ := ar
          simp only [hargs] at h
          have := (ih (.call acc args) r1 t r h hsupp).1
          rw [this] at hsupp
          simp [supported] at hsupp
      case dot =>
        simp only [pyTrailers] at h
        exact Option.noConfusion h
      all_goals
        simp only [pyTrailers] at h
        injection h with h
        injection h with h1 h2
        exact ⟨h1.symm, h2.symm⟩

theorem backward_all : ∀ f : Nat,
    (∀ ts t r, pySum f ts = some (t, r) → supported t = true →
      ∃ e, toPy e = t ∧ Spec.expr f ts = some (e, r)) ∧
    (∀ acc ts t r, pySumLoop f acc ts = some (t, r) → supported t = true →
      supported acc = true ∧ ∀ e0, toPy e0 = acc →
        ∃ e, toPy e = t ∧ Spec.exprLoop f e0 ts = some (e, r)) ∧
    (∀ ts t r, pyTerm f ts = some (t, r) → supported t = true →
      ∃ e, toPy e = t ∧ Spec.term f ts = some (e, r)) ∧
    (∀ acc ts t r, pyTermLoop f acc ts = some (t, r) → supported t = true →
      supported acc = true ∧ ∀ e0, toPy e0 = acc →
        ∃ e, toPy e = t ∧ Spec.termLoop f e0 ts = some (e, r)) ∧
    (∀ ts t r, pyFactor f ts = some (t, r) → supported t = true →
      ∃ e, toPy e = t ∧ Spec.factor f ts = some (e, r)) ∧
    (∀ ts t r, pyAtom f ts = some (t, r) → supported t = true →
      ∃ e, toPy e = t ∧ Spec.primary f ts = some (e, r)) := by
  intro f
  induction f with
  | zero =>
    refine ⟨?_, ?_, ?_, ?_, ?_, ?_⟩
    · intro ts t r h _; simp [pySum] at h
    · intro acc ts t r h _; simp [pySumLoop] at h
    · intro ts t r h _; simp [pyTerm] at h
    · intro acc ts t r h _; simp [pyTermLoop] at h
    · intro ts t r h _; simp [pyFactor] at h
    · intro ts t r h _; simp [pyAtom] at h
  | succ f ih =>
    obtain ⟨ihSum, ihSumLoop, ihTerm, ihTermLoop, ihFactor, ihAtom⟩ := ih
    refine ⟨?_, ?_, ?_, ?_, ?_, ?_⟩
    · -- sum level
      intro ts t r h hsupp
      simp only [pySum] at h
      cases hterm : pyTerm f ts with
      | none => simp only [hterm] at h; exact Option.noConfusion h
      | some tr =>
        obtain ⟨t1, r1⟩ := tr
        simp only [hterm] at h
        obtain ⟨hsupp1, hfun⟩ := ihSumLoop t1 r1 t r h hsupp
        obtain ⟨e1, he1, hspec1⟩ := ihTerm ts t1 r1 hterm hsupp1
        obtain ⟨e, he, hspec⟩ := hfun e1 he1
        refine ⟨e, he, ?_⟩
        simp only [Spec.expr, hspec1]
        exact hspec
    · -- sumLoop level
      intro acc ts t r h hsupp
      cases ts with
      | nil =>
        simp only [pySumLoop] at h
        injection h with h
        injection h with h1 h2
        subst h2
        refine ⟨h1 ▸ hsupp, ?_⟩
        intro e0 he0
        exact ⟨e0, he0.trans h1, by simp [Spec.exprLoop, h1]⟩
      | cons t0 ts2 =>
        cases t0
        case plus =>
          simp only [pySumLoop] at h
          cases hterm : pyTerm f ts2 with
          | none => simp only [hterm] at h; exact Option.noConfusion h
          | some tr =>
            obtain ⟨t2, r2⟩ := tr
            simp only [hterm] at h
            obtain ⟨hsuppa, hfun⟩ := ihSumLoop _ r2 t r h hsupp
            have hsacc : supported acc = true := by
              simp [supported, BOp.inDict] at hsuppa
              exact hsuppa.1
            have hst2 : supported t2 = true := by
              simp [supported, BOp.inDict] at hsuppa
              exact hsuppa.2
            refine ⟨hsacc, ?_⟩
            intro e0 he0
            obtain ⟨e2, he2, hspec2⟩ := ihTerm ts2 t2 r2 hterm hst2
            obtain ⟨e, he, hspec⟩ := hfun (.binaryOp .add e0 e2)
              (by simp [toPy, toPyB, he0, he2])
            refine ⟨e, he, ?_⟩
            simp only [Spec.exprLoop, hspec2]
            exact hspec
        case minus =>
          simp only [pySumLoop] at h
          cases hterm : pyTerm f ts2 with
          | none => simp only [hterm] at h; exact Option.noConfusion h
          | some tr =>
            obtain ⟨t2, r2⟩ := tr
            simp only [hterm] at h
            obtain ⟨hsuppa, hfun⟩ := ihSumLoop _ r2 t r h hsupp
            have hsacc : supported acc = true := by
              simp [supported, BOp.inDict] at hsuppa
              exact hsuppa.1
            have hst2 : supported t2 = true := by
              simp [supported, BOp.inDict] at hsuppa
              exact hsuppa.2
            refine ⟨hsacc, ?_⟩
            intro e0 he0
            obtain ⟨e2, he2, hspec2⟩ := ihTerm ts2 t2 r2 hterm hst2
            obtain ⟨e, he, hspec⟩ := hfun (.binaryOp .sub e0 e2)
              (by simp [toPy, toPyB, he0, he2])
            refine ⟨e, he, ?_⟩
            simp only [Spec.exprLoop, hspec2]
            exact hspec
        all_goals
          simp only [pySumLoop] at h
          injection h with h
          injection h with h1 h2
          subst h2
          refine ⟨h1 ▸ hsupp, ?_⟩
          intro e0 he0
          exact ⟨e0, he0.trans h1, by simp [Spec.exprLoop, h1]⟩
    · -- term level
      intro ts t r h hsupp
      simp only [pyTerm] at h
      cases hfac : pyFactor f ts with
      | none => simp only [hfac] at h; exact Option.noConfusion h
      | some tr =>
        obtain ⟨t1, r1⟩ := tr
        simp only [hfac] at h
        obtain ⟨hsupp1, hfun⟩ := ihTermLoop t1 r1 t r h hsupp
        obtain ⟨e1, he1, hspec1⟩ := ihFactor ts t1 r1 hfac hsupp1
        obtain ⟨e, he, hspec⟩ := hfun e1 he1
        refine ⟨e, he, ?_⟩
        simp only [Spec.term, hspec1]
        exact hspec
    · -- termLoop level
      intro acc ts t r h hsupp
      cases ts with
      | nil =>
        simp only [pyTermLoop] at h
        injection h with h
        injection h with h1 h2
        subst h2
        refine ⟨h1 ▸ hsupp, ?_⟩
        intro e0 he0
        exact ⟨e0, he0.trans h1, by simp [Spec.termLoop, h1]⟩
      | cons t0 ts2 =>
        cases t0
        case star =>
          simp only [pyTermLoop] at h
          cases hfac : pyFactor f ts2 with
          | none => simp only [hfac] at h; exact Option.noConfusion h
          | some tr =>
            obtain ⟨t2, r2⟩ := tr
            simp only [hfac] at h
            obtain ⟨hsuppa, hfun⟩ := ihTermLoop _ r2 t r h hsupp
            have hsacc : supported acc = true := by
              simp [supported, BOp.inDict] at hsuppa
              exact hsuppa.1
            have hst2 : supported t2 = true := by
              simp [supported, BOp.inDict] at hsuppa
              exact hsuppa.2
            refine ⟨hsacc, ?_⟩
            intro e0 he0
            obtain ⟨e2, he2, hspec2⟩ := ihFactor ts2 t2 r2 hfac hst2
            obtain ⟨e, he, hspec⟩ := hfun (.binaryOp .mul e0 e2)
              (by simp [toPy, toPyB, he0, he2])
            refine ⟨e, he, ?_⟩
            simp only [Spec.termLoop, hspec2]
            exact hspec
        case slash =>
          simp only [pyTermLoop] at h
          cases hfac : pyFactor f ts2 with
          | none => simp only [hfac] at h; exact Option.noConfusion h
          | some tr =>
            obtain ⟨t2, r2⟩ := tr
            simp only [hfac] at h
            obtain ⟨hsuppa, hfun⟩ := ihTermLoop _ r2 t r h hsupp
            have hsacc : supported acc = true := by
              simp [supported, BOp.inDict] at hsuppa
              exact hsuppa.1
            have hst2 : supported t2 = true := by
              simp [supported, BOp.inDict] at hsuppa
              exact hsuppa.2
            refine ⟨hsacc, ?_⟩
            intro e0 he0
            obtain ⟨e2, he2, hspec2⟩ := ihFactor ts2 t2 r2 hfac hst2
            obtain ⟨e, he, hspec⟩ := hfun (.binaryOp .div e0 e2)
              (by simp [toPy, toPyB, he0, he2])
            refine ⟨e, he, ?_⟩
            simp only [Spec.termLoop, hspec2]
            exact hspec
        case dslash =>
          simp only [pyTermLoop] at h
          cases hfac : pyFactor f ts2 with
          | none => simp only [hfac] at h; exact Option.noConfusion h
          | some tr =>
            obtain ⟨t2, r2⟩ := tr
            simp only [hfac] at h
            obtain ⟨hsuppa, _⟩ := ihTermLoop _ r2 t r h hsupp
            simp [supported, BOp.inDict] at hsuppa
        all_goals
          simp only [pyTermLoop] at h
          injection h with h
          injection h with h1 h2
          subst h2
          refine ⟨h1 ▸ hsupp, ?_⟩
          intro e0 he0
          exact ⟨e0, he0.trans h1, by simp [Spec.termLoop, h1]⟩
    · -- factor level
      intro ts t r h hsupp
      have helse : ∀ L, ((match pyAtom f L with
          | some (a, r0) =>
            match pyTrailers f a r0 with
            | some (t1, r1) =>
              match r1 with
              | .dstar :: ts2 =>
                match pyFactor f ts2 with
                | some (rhs, r2) => some (.binOp .pow t1 rhs, r2)
                | none => none
              | _ => some (t1, r1)
            | none => none
          | none => none) = some (t, r)) →
          ∃ e, toPy e = t ∧ Spec.primary f L = some (e, r) := by
        intro L hL
        split at hL
        · rename_i a r0 hatom
          split at hL
          · rename_i t1 r1 htr
            split at hL
            · rename_i ts2
              split at hL
              · rename_i rhs r2 hrhs
                injection hL with hL
                injection hL with h1 h2
                rw [← h1] at hsupp
                simp [supported, BOp.inDict] at hsupp
              · exact Option.noConfusion hL
            · injection hL with hL
              injection hL with h1 h2
              obtain ⟨hta, htr2⟩ := pyTrailers_supported f a r0 t1 r1 htr (h1 ▸ hsupp)
              subst hta
              obtain ⟨e, he, hspec⟩ := ihAtom L t1 r0 hatom (h1 ▸ hsupp)
              refine ⟨e, he.trans h1, ?_⟩
              rw [← h2, htr2]
              exact hspec
          · exact Option.noConfusion hL
        · exact Option.noConfusion hL
      cases ts with
      | nil =>
        have := helse [] h
        obtain ⟨e, he, hspec⟩ := this
        exact ⟨e, he, hspec⟩
      | cons t0 ts2 =>
        cases t0
        case plus =>
          simp only [pyFactor] at h
          cases hf : pyFactor f ts2 with
          | none => simp only [hf] at h; exact Option.noConfusion h
          | some xr =>
            obtain ⟨x, r1⟩ := xr
            simp only [hf] at h
            injection h with h
            injection h with h1 h2
            have hsx : supported x = true := by
              rw [← h1] at hsupp
              simpa [supported] using hsupp
            obtain ⟨ex, hex, hspecx⟩ := ihFactor ts2 x r1 hf hsx
            rw [h2] at hspecx
            refine ⟨.unaryOp .plus ex, ?_, ?_⟩
            · rw [← h1]
              simp [toPy, toPyU, hex]
            · simp only [Spec.factor, hspecx]
        case minus =>
          simp only [pyFactor] at h
          cases hf : pyFactor f ts2 with
          | none => simp only [hf] at h; exact Option.noConfusion h
          | some xr =>
            obtain ⟨x, r1⟩ := xr
            simp only [hf] at h
            injection h with h
            injection h with h1 h2
            have hsx : supported x = true := by
              rw [← h1] at hsupp
              simpa [supported] using hsupp
            obtain ⟨ex, hex, hspecx⟩ := ihFactor ts2 x r1 hf hsx
            rw [h2] at hspecx
            refine ⟨.unaryOp .neg ex, ?_, ?_⟩
            · rw [← h1]
              simp [toPy, toPyU, hex]
            · simp only [Spec.factor, hspecx]
        all_goals
          exact helse _ h
    · -- atom level
      intro ts t r h hsupp
      cases ts with
      | nil => simp [pyAtom] at h
      | cons t0 ts2 =>
        cases t0
        case num v =>
          simp only [pyAtom] at h
          injection h with h
          injection h with h1 h2
          subst h2
          refine ⟨.number v, h1, ?_⟩
          simp [Spec.primary]
        case ellipsisT =>
          simp only [pyAtom] at h
          injection h with h
          injection h with h1 h2
          rw [← h1] at hsupp
          simp [supported] at hsupp
        case lparen =>
          simp only [pyAtom] at h
          split at h
          · rename_i ts3
            injection h with h
            injection h with h1 h2
            rw [← h1] at hsupp
            simp [supported] at hsupp
          · split at h
            · rename_i t1 r2 hsum
              injection h with h
              injection h with h1 h2
              obtain ⟨e, he, hspec⟩ := ihSum ts2 t1 (.rparen :: r2) hsum (h1 ▸ hsupp)
              refine ⟨e, he.trans h1, ?_⟩
              rw [h2] at hspec
              simp only [Spec.primary, hspec]
            · exact Option.noConfusion h
        all_goals
          simp only [pyAtom] at h
          exact Option.noConfusion h

theorem evalNode_toPy : ∀ e : Spec.Expression,
    evalNode (toPy e) = (Spec.evalExpression e).mapError (fun _ => EErr.zeroDiv)
  | .number v => rfl
  | .binaryOp .add l r => by
    simp only [toPy, toPyB, evalNode, Spec.evalExpression,
      evalNode_toPy l, evalNode_toPy r]
    cases hl : Spec.evalExpression l with
    | error e => simp [Except.mapError, Except.bind]
    | ok lv =>
      cases hr : Spec.evalExpression r with
      | error e => simp [Except.mapError, Except.bind, Except.map]
      | ok rv => simp [Except.mapError, Except.bind, Except.map]
  | .binaryOp .sub l r => by
    simp only [toPy, toPyB, evalNode, Spec.evalExpression,
      evalNode_toPy l, evalNode_toPy r]
    cases hl : Spec.evalExpression l with
    | error e => simp [Except.mapError, Except.bind]
    | ok lv =>
      cases hr : Spec.evalExpression r with
      | error e => simp [Except.mapError, Except.bind, Except.map]
      | ok rv => simp [Except.mapError, Except.bind, Except.map]
  | .binaryOp .mul l r => by
    simp only [toPy, toPyB, evalNode, Spec.evalExpression,
      evalNode_toPy l, evalNode_toPy r]
    cases hl : Spec.evalExpression l with
    | error e => simp [Except.mapError, Except.bind]
    | ok lv =>
      cases hr : Spec.evalExpression r with
      | error e => simp [Except.mapError, Except.bind, Except.map]
      | ok rv => simp [Except.mapError, Except.bind, Except.map]
  | .binaryOp .div l r => by
    simp only [toPy, toPyB, evalNode, Spec.evalExpression,
      evalNode_toPy l, evalNode_toPy r]
    cases hl : Spec.evalExpression l with
    | error e => simp [Except.mapError, Except.bind]
    | ok lv =>
      cases hr : Spec.evalExpression r with
      | error e => simp [Except.mapError, Except.bind, Except.map]
      | ok rv =>
        simp only [Except.mapError, Except.bind]
        by_cases hz : rv.isZero = true
        · simp [hz, Except.mapError]
        · simp [hz, Except.mapError]
  | .unaryOp .plus x => by
    simp only [toPy, toPyU, evalNode, Spec.evalExpression, evalNode_toPy x]
  | .unaryOp .neg x => by
    simp only [toPy, toPyU, evalNode, Spec.evalExpression, evalNode_toPy x]
    cases hx : Spec.evalExpression x with
    | error e => simp [Except.mapError, Except.map]
    | ok xv => simp [Except.mapError, Except.map]

theorem evalNode_ok_supported : ∀ (t : PyAst) (v : Frac),
    evalNode t = .ok v → supported t = true
  | .num _, _, _ => rfl
  | .binOp .add l r, v, h => by
    simp only [evalNode] at h
    cases hl : evalNode l with
    | error e => rw [hl] at h; simp [Except.bind] at h
    | ok lv =>
      rw [hl] at h
      cases hr : evalNode r with
      | error e => rw [hr] at h; simp [Except.bind, Except.map] at h
      | ok rv =>
        simp [supported, BOp.inDict, evalNode_ok_supported l lv hl,
          evalNode_ok_supported r rv hr]
  | .binOp .sub l r, v, h => by
    simp only [evalNode] at h
    cases hl : evalNode l with
    | error e => rw [hl] at h; simp [Except.bind] at h
    | ok lv =>
      rw [hl] at h
      cases hr : evalNode r with
      | error e => rw [hr] at h; simp [Except.bind, Except.map] at h
      | ok rv =>
        simp [supported, BOp.inDict, evalNode_ok_supported l lv hl,
          evalNode_ok_supported r rv hr]
  | .binOp .mul l r, v, h => by
    simp only [evalNode] at h
    cases hl : evalNode l with
    | error e => rw [hl] at h; simp [Except.bind] at h
    | ok lv =>
      rw [hl] at h
      cases hr : evalNode r with
      | error e => rw [hr] at h; simp [Except.bind, Except.map] at h
      | ok rv =>
        simp [supported, BOp.inDict, evalNode_ok_supported l lv hl,
          evalNode_ok_supported r rv hr]
  | .binOp .div l r, v, h => by
    simp only [evalNode] at h
    cases hl : evalNode l with
    | error e => rw [hl] at h; simp [Except.bind] at h
    | ok lv =>
      rw [hl] at h
      cases hr : evalNode r with
      | error e => rw [hr] at h; simp [Except.bind, Except.map] at h
      | ok rv =>
        simp [supported, BOp.inDict, evalNode_ok_supported l lv hl,
          evalNode_ok_supported r rv hr]
  | .binOp .pow l r, v, h => by simp [evalNode] at h
  | .binOp .floordiv l r, v, h => by simp [evalNode] at h
  | .unaryOp .uadd x, v, h => by
    simp only [evalNode] at h
    simpa [supported] using evalNode_ok_supported x v h
  | .unaryOp .usub x, v, h => by
    simp only [evalNode] at h
    cases hx : evalNode x with
    | error e => rw [hx] at h; simp [Except.map] at h
    | ok xv =>
      simpa [supported] using evalNode_ok_supported x xv hx
  | .call _ _, v, h => by simp [evalNode] at h
  | .tuple0, v, h => by simp [evalNode] at h
  | .ellipsisNode, v, h => by simp [evalNode] at h

theorem spec_ok_code_ok (s : String) (v : Frac)
    (hspec : Spec.evaluate s = .ok v) (hlex : lexesStrict (pyStrip s) = true) :
    handleCalc s = .success (pyStrip s) v := by
  simp only [Spec.evaluate] at hspec
  by_cases h1 : (pyStrip s).data.isEmpty = true
  · rw [if_pos h1] at hspec
    exact Except.noConfusion hspec
  · rw [if_neg h1] at hspec
    by_cases h2 : (pyStrip s).data.all allowedChar = true
    · rw [if_pos h2] at hspec
      cases htokL : tokenizeString false (pyStrip s) with
      | error e =>
        simp only [htokL] at hspec
        exact Except.noConfusion hspec
      | ok ts0 =>
        simp only [htokL] at hspec
        cases hp : Spec.parseTokens ts0 with
        | none =>
          simp only [hp] at hspec
          exact Except.noConfusion hspec
        | some e =>
          simp only [hp] at hspec
          cases hev : Spec.evalExpression e with
          | error u =>
            simp only [hev] at hspec
            exact Except.noConfusion hspec
          | ok v0 =>
            simp only [hev] at hspec
            injection hspec with hv
            subst hv
            unfold lexesStrict at hlex
            cases htokS : tokenizeString true (pyStrip s) with
            | error e2 => rw [htokS] at hlex; exact Bool.noConfusion hlex
            | ok ts1 =>
              have hts : ts0 = ts1 := by
                have h3 := tokenizeString_strict_to_lenient (pyStrip s) ts1 htokS
                rw [htokL] at h3
                injection h3
              subst hts
              unfold Spec.parseTokens at hp
              cases hpe : Spec.expr (parserFuel ts0) ts0 with
              | none => rw [hpe] at hp; exact Option.noConfusion hp
              | some er =>
                obtain ⟨e1, r⟩ := er
                rw [hpe] at hp
                cases r with
                | cons t0 r2 => exact Option.noConfusion hp
                | nil =>
                  injection hp with hp
                  subst hp
                  have hpy := (forward_all (parserFuel ts0)).1 ts0 e1 [] hpe rfl
                  have hcode : evaluateExpression (pyStrip s) = .ok v0 := by
                    unfold evaluateExpression
                    simp only [htokS]
                    unfold pyParseTokens
                    simp only [hpy]
                    rw [evalNode_toPy e1, hev]
                    rfl
                  simp only [handleCalc]
                  rw [if_neg h1, if_pos h2]
                  simp only [hcode]
    · rw [if_neg h2] at hspec
      exact Except.noConfusion hspec

theorem gate_passing_outcomes (s : String)
    (hne : ¬(pyStrip s).data.isEmpty = true)
    (hgate : (pyStrip s).data.all allowedChar = true)
    (hwf : Spec.wellFormed s = false) :
    handleCalc s = .parseError ∨ handleCalc s = .divzero := by
  simp only [handleCalc]
  rw [if_neg hne, if_pos hgate]
  cases hev : evaluateExpression (pyStrip s) with
  | ok v =>
    exfalso
    unfold evaluateExpression at hev
    cases htok : tokenizeString true (pyStrip s) with
    | error e =>
      simp only [htok] at hev
      exact Except.noConfusion hev
    | ok ts =>
      simp only [htok] at hev
      cases hp : pyParseTokens ts with
      | none =>
        simp only [hp] at hev
        exact Except.noConfusion hev
      | some t =>
        simp only [hp] at hev
        have hsupp : supported t = true := evalNode_ok_supported t v hev
        unfold pyParseTokens at hp
        cases hps : pySum (parserFuel ts) ts with
        | none => rw [hps] at hp; exact Option.noConfusion hp
        | some tr =>
          obtain ⟨t1, r⟩ := tr
          rw [hps] at hp
          cases r with
          | cons u r2 => exact Option.noConfusion hp
          | nil =>
            injection hp with hp
            subst hp
            obtain ⟨e, he, hspec⟩ :=
              (backward_all (parserFuel ts)).1 ts t1 [] hps hsupp
            have hlen : tokenizeString false (pyStrip s) = .ok ts :=
              tokenizeString_strict_to_lenient (pyStrip s) ts htok
            unfold Spec.wellFormed at hwf
            simp only [hlen] at hwf
            unfold Spec.parseTokens at hwf
            simp only [hspec] at hwf
            simp at hwf
  | error err =>
    cases err with
    | syntaxErr => exact Or.inl rfl
    | valueErr => exact Or.inl rfl
    | zeroDiv => exact Or.inr rfl

theorem evalNodeF_complete : ∀ (t : PyAst) (fuel : Nat), sizePy t ≤ fuel →
    evalNodeF fuel t = some (evalNode t)
  | t, 0, h => by exfalso; cases t <;> simp [sizePy] at h
  | .num v, f + 1, _ => rfl
  | .binOp .add l r, f + 1, h => by
    have hl : sizePy l ≤ f := by simp only [sizePy] at h; omega
    have hr : sizePy r ≤ f := by simp only [sizePy] at h; omega
    simp only [evalNodeF, evalNode, evalNodeF_complete l f hl,
      evalNodeF_complete r f hr]
    cases hl2 : evalNode l with
    | error e => simp [liftB, Except.bind]
    | ok lv =>
      cases hr2 : evalNode r with
      | error e => simp [liftB, Except.bind, Except.map]
      | ok rv => simp [liftB, Except.bind, Except.map]
  | .binOp .sub l r, f + 1, h => by
    have hl : sizePy l ≤ f := by simp only [sizePy] at h; omega
    have hr : sizePy r ≤ f := by simp only [sizePy] at h; omega
    simp only [evalNodeF, evalNode, evalNodeF_complete l f hl,
      evalNodeF_complete r f hr]
    cases hl2 : evalNode l with
    | error e => simp [liftB, Except.bind]
    | ok lv =>
      cases hr2 : evalNode r with
      | error e => simp [liftB, Except.bind, Except.map]
      | ok rv => simp [liftB, Except.bind, Except.map]
  | .binOp .mul l r, f + 1, h => by
    have hl : sizePy l ≤ f := by simp only [sizePy] at h; omega
    have hr : sizePy r ≤ f := by simp only [sizePy] at h; omega
    simp only [evalNodeF, evalNode, evalNodeF_complete l f hl,
      evalNodeF_complete r f hr]
    cases hl2 : evalNode l with
    | error e => simp [liftB, Except.bind]
    | ok lv =>
      cases hr2 : evalNode r with
      | error e => simp [liftB, Except.bind, Except.map]
      | ok rv => simp [liftB, Except.bind, Except.map]
  | .binOp .div l r, f + 1, h => by
    have hl : sizePy l ≤ f := by simp only [sizePy] at h; omega
    have hr : sizePy r ≤ f := by simp only [sizePy] at h; omega
    simp only [evalNodeF, evalNode, evalNodeF_complete l f hl,
      evalNodeF_complete r f hr]
    cases hl2 : evalNode l with
    | error e => simp [liftB, Except.bind]
    | ok lv =>
      cases hr2 : evalNode r with
      | error e => simp [liftB, Except.bind, Except.map]
      | ok rv =>
        by_cases hz : rv.isZero = true <;> simp [liftB, Except.bind, hz]
  | .binOp .pow _ _, f + 1, _ => rfl
  | .binOp .floordiv _ _, f + 1, _ => rfl
  | .unaryOp .uadd x, f + 1, h => by
    have hx : sizePy x ≤ f := by simp only [sizePy] at h; omega
    simp only [evalNodeF, evalNode]
    exact evalNodeF_complete x f hx
  | .unaryOp .usub x, f + 1, h => by
    have hx : sizePy x ≤ f := by simp only [sizePy] at h; omega
    simp only [evalNodeF, evalNode, evalNodeF_complete x f hx]
    cases hx2 : evalNode x with
    | error e => simp [liftB, Except.map]
    | ok xv => simp [liftB, Except.map]
  | .call _ _, f + 1, _ => rfl
  | .tuple0, f + 1, _ => rfl
  | .ellipsisNode, f + 1, _ => rfl

/-- **C1 (amended).** For every expression string that is well formed per the
documented grammar (the spec model evaluates it to `v`) and is additionally
lexically valid Python source (integer literals without leading zeros,
whitespace between tokens limited to spaces/tabs/form feeds, newlines only
inside parentheses), the calc handler replies with the success message
carrying exactly the standard left-to-right, precedence-respecting value `v`;
in particular the six example evaluations hold (see the witness). -/
theorem calc_wellformed_standard_value (s : String) (v : Frac)
    (hspec : Spec.evaluate s = .ok v) (hlex : lexesStrict (pyStrip s) = true) :
    handleCalc s = .success (pyStrip s) v :=
  spec_ok_code_ok s v hspec hlex

theorem calc_wellformed_standard_value_witness :
    (handleCalc "10-2-3" = .success (pyStrip "10-2-3") (Frac.ofNat 5) ∧
      pyStrip "10-2-3" = "10-2-3") ∧
    (handleCalc "20/2/5" = .success (pyStrip "20/2/5") ⟨20, 10⟩ ∧
      Frac.eqv ⟨20, 10⟩ (Frac.ofNat 2) = true) ∧
    (handleCalc "2+3*4" = .success (pyStrip "2+3*4") (Frac.ofNat 14)) ∧
    (handleCalc "(2+3)*4" = .success (pyStrip "(2+3)*4") (Frac.ofNat 20)) ∧
    (handleCalc "--5" = .success (pyStrip "--5") (Frac.ofNat 5)) ∧
    (handleCalc "3*-2" = .success (pyStrip "3*-2") (Frac.ofInt (-6))) :=
  ⟨⟨calc_wellformed_standard_value "10-2-3" (Frac.ofNat 5) (by decide) (by decide),
      by decide⟩,
    ⟨calc_wellformed_standard_value "20/2/5" ⟨20, 10⟩ (by decide) (by decide),
      by decide⟩,
    calc_wellformed_standard_value "2+3*4" (Frac.ofNat 14) (by decide) (by decide),
    calc_wellformed_standard_value "(2+3)*4" (Frac.ofNat 20) (by decide) (by decide),
    calc_wellformed_standard_value "--5" (Frac.ofNat 5) (by decide) (by decide),
    calc_wellformed_standard_value "3*-2" (Frac.ofInt (-6)) (by decide) (by decide)⟩

/-- **C1 counterexample.** Two well-formed expression strings (per the
documented grammar, under which whitespace is insignificant and a number is
one or more digits with at most one decimal point) on which evaluation does
not return the standard arithmetic value: `01` (Python rejects leading-zero
integer literals) and `1\n+2` (Python rejects a newline outside parentheses);
both get the parse-error reply instead of their values 1 and 3. -/
theorem calc_wellformed_standard_value_counterexample :
    (Spec.evaluate "01" = .ok (Frac.ofNat 1) ∧ handleCalc "01" = .parseError) ∧
    (Spec.evaluate "1\n+2" = .ok (Frac.ofNat 3) ∧
      handleCalc "1\n+2" = .parseError) := by
  refine ⟨⟨?_, ?_⟩, ?_, ?_⟩ <;> decide

/-- **C2.** For every input whose trimmed form is non-empty: if some character
lies outside `[0-9+\-*/().\s]` the reply is the allowed-character-set message
(the parser is never reached, as the handler returns at the gate), and
conversely if every character is in the set the gate passes — the reply is
neither the character-set message nor the usage prompt. -/
theorem calc_character_gate (s : String)
    (hne : ¬(pyStrip s).data.isEmpty = true) :
    (¬(pyStrip s).data.all allowedChar = true → handleCalc s = .disallowed) ∧
    ((pyStrip s).data.all allowedChar = true →
      handleCalc s ≠ .disallowed ∧ handleCalc s ≠ .usage) := by
  constructor
  · intro hbad
    simp only [handleCalc]
    rw [if_neg hne, if_neg hbad]
  · intro hgood
    simp only [handleCalc]
    rw [if_neg hne, if_pos hgood]
    cases hev : evaluateExpression (pyStrip s) with
    | ok v => exact ⟨by simp, by simp⟩
    | error e => cases e <;> exact ⟨by simp, by simp⟩

theorem calc_character_gate_witness :
    ((pyStrip "2^3").data.isEmpty = false ∧ handleCalc "2^3" = .disallowed) ∧
    ((pyStrip "2+3").data.all allowedChar = true ∧
      handleCalc "2+3" ≠ .disallowed) :=
  ⟨⟨by decide, (calc_character_gate "2^3" (by decide)).1 (by decide)⟩,
    ⟨by decide, ((calc_character_gate "2+3" (by decide)).2 (by decide)).1⟩⟩

/-- **C3.** Division whose right operand evaluates to exactly zero fails with
the division-by-zero outcome, at any nesting depth: (i) on trees, a `Div`
node whose operands evaluate to `lv` and a zero value raises
`ZeroDivisionError` rather than producing a value; (ii) the handler maps that
error to the division-by-zero reply (never a numeric reply, hence never an
infinity or NaN); (iii) end to end, `2/0` and the nested `2/(1-1)` both give
the division-by-zero reply. -/
theorem calc_division_by_zero :
    (∀ l r lv rv, evalNode l = .ok lv → evalNode r = .ok rv →
      rv.isZero = true → evalNode (.binOp .div l r) = .error .zeroDiv) ∧
    (∀ s, ¬(pyStrip s).data.isEmpty = true →
      (pyStrip s).data.all allowedChar = true →
      evaluateExpression (pyStrip s) = .error .zeroDiv →
      handleCalc s = .divzero) ∧
    handleCalc "2/0" = .divzero ∧ handleCalc "2/(1-1)" = .divzero := by
  refine ⟨?_, ?_, by decide, by decide⟩
  · intro l r lv rv hl hr hz
    simp [evalNode, hl, hr, Except.bind, hz]
  · intro s hne hgate hev
    simp only [handleCalc]
    rw [if_neg hne, if_pos hgate]
    simp only [hev]

theorem calc_division_by_zero_witness :
    evalNode (.binOp .div (.num ⟨2, 1⟩) (.num ⟨0, 5⟩)) = .error .zeroDiv ∧
    handleCalc "8/(2-2)" = .divzero :=
  ⟨calc_division_by_zero.1 _ _ ⟨2, 1⟩ ⟨0, 5⟩ rfl rfl (by decide),
    calc_division_by_zero.2.1 "8/(2-2)" (by decide) (by decide) (by decide)⟩

/-- **C4 (amended).** No construct outside the documented grammar is silently
accepted: every input that passes the character gate but is not generated by
the grammar gets a failure reply — the parse-error reply, or the
division-by-zero reply when a division by zero is evaluated before the
unsupported construct is reached — and never a success reply. -/
theorem calc_non_grammar_rejected (s : String)
    (hne : ¬(pyStrip s).data.isEmpty = true)
    (hgate : (pyStrip s).data.all allowedChar = true)
    (hwf : Spec.wellFormed s = false) :
    (handleCalc s = .parseError ∨ handleCalc s = .divzero) ∧
    ∀ e v, handleCalc s ≠ .success e v := by
  have h := gate_passing_outcomes s hne hgate hwf
  refine ⟨h, ?_⟩
  intro e v hsucc
  rcases h with h | h <;> rw [hsucc] at h <;> exact CalcReply.noConfusion h

theorem calc_non_grammar_rejected_witness :
    (Spec.wellFormed "2**3" = false ∧ handleCalc "2**3" = .parseError ∧
      (handleCalc "2**3" = .parseError ∨ handleCalc "2**3" = .divzero)) ∧
    (Spec.wellFormed "2(3)" = false ∧ handleCalc "2(3)" = .parseError ∧
      (handleCalc "2(3)" = .parseError ∨ handleCalc "2(3)" = .divzero)) :=
  ⟨⟨by decide, by decide,
      (calc_non_grammar_rejected "2**3" (by decide) (by decide) (by decide)).1⟩,
    ⟨by decide, by decide,
      (calc_non_grammar_rejected "2(3)" (by decide) (by decide) (by decide)).1⟩⟩

/-- **C4 counterexample.** `1/0+2**3` passes the character gate and is not
generated by the grammar (it contains `**`), yet evaluation fails with the
division-by-zero outcome — not with DisallowedCharacter or ParseError as the
claim states — because `_eval_node` evaluates the left operand `1/0` before
noticing the unsupported `Pow` node. -/
theorem calc_non_grammar_rejected_counterexample :
    (pyStrip "1/0+2**3").data.all allowedChar = true ∧
    Spec.wellFormed "1/0+2**3" = false ∧
    handleCalc "1/0+2**3" = .divzero ∧
    CalcReply.divzero ≠ CalcReply.parseError ∧
    CalcReply.divzero ≠ CalcReply.disallowed := by
  refine ⟨?_, ?_, ?_, ?_, ?_⟩ <;> decide

/-- **C5 (amended).** Grammar-violating inputs that pass the character gate
get the parse-error reply — except that an expression evaluating a division
by zero before its offending construct gets the division-by-zero reply — and
never the usage prompt, the character-set message, or a success value; the
four listed examples (`2+`, `(2+3`, `2..5`, `2.5.6`) all give the parse-error
reply. -/
theorem calc_parse_error_examples :
    handleCalc "2+" = .parseError ∧
    handleCalc "(2+3" = .parseError ∧
    handleCalc "2..5" = .parseError ∧
    handleCalc "2.5.6" = .parseError ∧
    ∀ s, ¬(pyStrip s).data.isEmpty = true →
      (pyStrip s).data.all allowedChar = true → Spec.wellFormed s = false →
      handleCalc s ≠ .usage ∧ handleCalc s ≠ .disallowed ∧
        ∀ e v, handleCalc s ≠ .success e v := by
  refine ⟨by decide, by decide, by decide, by decide, ?_⟩
  intro s hne hgate hwf
  rcases gate_passing_outcomes s hne hgate hwf with h | h <;> rw [h] <;>
    exact ⟨by simp, by simp, fun e v => by simp⟩

theorem calc_parse_error_examples_witness :
    Spec.wellFormed "((1)" = false ∧
    handleCalc "((1)" ≠ .usage ∧ handleCalc "((1)" ≠ .disallowed :=
  ⟨by decide,
    (calc_parse_error_examples.2.2.2.2 "((1)" (by decide) (by decide)
      (by decide)).1,
    (calc_parse_error_examples.2.2.2.2 "((1)" (by decide) (by decide)
      (by decide)).2.1⟩

/-- **C5 counterexample.** `3/0+2**2` passes the gate, violates the grammar,
and fails with the division-by-zero outcome, not the ParseError outcome the
claim requires exclusively. -/
theorem calc_parse_error_examples_counterexample :
    (pyStrip "3/0+2**2").data.all allowedChar = true ∧
    Spec.wellFormed "3/0+2**2" = false ∧
    handleCalc "3/0+2**2" = .divzero ∧
    CalcReply.divzero ≠ CalcReply.parseError := by
  refine ⟨?_, ?_, ?_, ?_⟩ <;> decide

/-- **C7.** An input whose trimmed form is empty gets the usage-prompt reply,
which is distinct from the parse-error reply; the handler returns before the
character gate or the parser could run. -/
theorem calc_empty_input_usage (s : String) (h : pyStrip s = "") :
    handleCalc s = .usage ∧ CalcReply.usage ≠ CalcReply.parseError := by
  refine ⟨?_, by simp⟩
  simp [handleCalc, h]

theorem calc_empty_input_usage_witness :
    pyStrip " \t " = "" ∧ handleCalc " \t " = .usage :=
  ⟨by decide, (calc_empty_input_usage " \t " (by decide)).1⟩

/-- **C8.** The calc handler is deterministic and stateless: viewed as a
state-passing function on the bot object (whose relevant state `_handle_calc`
neither reads mutably nor writes), two consecutive invocations on the same
payload return equal replies and leave the state unchanged. -/
theorem calc_deterministic_stateless (bot : EchoBot) (s : String) :
    (handleCalcM bot s).1 = (handleCalcM (handleCalcM bot s).2 s).1 ∧
    (handleCalcM (handleCalcM bot s).2 s).2 = bot :=
  ⟨rfl, rfl⟩

/-- **C9.** `_eval_node` terminates on every tree: it is pure structural
recursion, each recursive call is on a strict subterm, and fuel equal to the
number of visitable nodes (linear in tree size) always suffices — the fuelled
evaluator returns the total evaluator's result instead of running out. -/
theorem calc_eval_terminates : ∀ (t : PyAst) (fuel : Nat),
    sizePy t ≤ fuel → evalNodeF fuel t = some (evalNode t) :=
  evalNodeF_complete

theorem calc_eval_terminates_witness :
    sizePy (.binOp .div (.num ⟨1, 1⟩) (.num ⟨0, 1⟩)) ≤ 5 ∧
    evalNodeF 5 (.binOp .div (.num ⟨1, 1⟩) (.num ⟨0, 1⟩)) =
      some (.error .zeroDiv) := by
  refine ⟨by decide, ?_⟩
  rw [calc_eval_terminates _ 5 (by decide)]
  decide

/-- **C10.** Any parsed node that is not a supported binary operation, a
unary operation or a numeric constant makes `_eval_node` raise `ValueError`;
the handler maps a `ValueError` outcome to the parse-error reply; and the
input `...`, which passes the character gate and parses to the `Ellipsis`
constant, yields the parse-error reply rather than a success value or a
crash. -/
theorem calc_unsupported_node_value_error :
    (∀ t, supportedHead t = false → evalNode t = .error .valueErr) ∧
    (∀ s, ¬(pyStrip s).data.isEmpty = true →
      (pyStrip s).data.all allowedChar = true →
      evaluateExpression (pyStrip s) = .error .valueErr →
      handleCalc s = .parseError) ∧
    handleCalc "..." = .parseError := by
  refine ⟨?_, ?_, by decide⟩
  · intro t h
    cases t with
    | num v => simp [supportedHead] at h
    | binOp op l r =>
      cases op with
      | add => simp [supportedHead, BOp.inDict] at h
      | sub => simp [supportedHead, BOp.inDict] at h
      | mul => simp [supportedHead, BOp.inDict] at h
      | div => simp [supportedHead, BOp.inDict] at h
      | pow => rfl
      | floordiv => rfl
    | unaryOp op x => simp [supportedHead] at h
    | call g args => rfl
    | tuple0 => rfl
    | ellipsisNode => rfl
  · intro s hne hgate hev
    simp only [handleCalc]
    rw [if_neg hne, if_pos hgate]
    simp only [hev]

theorem calc_unsupported_node_value_error_witness :
    supportedHead PyAst.tuple0 = false ∧
    evalNode PyAst.tuple0 = .error .valueErr ∧
    evaluateExpression (pyStrip "()+1") = .error .valueErr ∧
    handleCalc "()+1" = .parseError :=
  ⟨by decide, calc_unsupported_node_value_error.1 PyAst.tuple0 (by decide),
    by decide,
    calc_unsupported_node_value_error.2.1 "()+1" (by decide) (by decide)
      (by decide)⟩
